import Mathlib

/-!
Shallow embedding of `searx/engines/bing.py` (SearXNG Bing-Web engine).

Python strings are modelled as Lean `String` / `List Char` (Python `str` is a
sequence of code points; all slicing in the source is by code point).  Python
`bytes` values are modelled as `List Nat` with every element `< 256`.  Python
`dict`s are modelled as association lists with first-match lookup and
replace-or-append assignment, which preserves insertion order exactly as
CPython dicts do.  Fallible code paths (uncaught exceptions) are modelled with
`Except String`.

External collaborators that are not part of the repository snapshot
(`searx.utils` XPath helpers, `lxml`, `babel`, `EngineTraits`,
`urllib.parse`, `base64`, `time.time`) are modelled at their interface:
the DOM is abstracted into the fields the XPath helpers extract, `babel`
parsing is a function parameter, and the `urllib`/`base64` helpers are given
faithful executable definitions of the documented behaviour on the inputs the
engine feeds them.
-/

namespace Bing

/-! ## Python dict model (association lists, insertion ordered) -/

/-- Python `d.get(k)`: value of the first (unique) binding of `k`, else `None`. -/
def dictGet : List (String × String) → String → Option String
  | [], _ => none
  | kv :: rest, k => if kv.1 = k then some kv.2 else dictGet rest k

/-- Python `d[k] = v`: replace the existing binding in place, else append. -/
def dictSet (m : List (String × String)) (k : String) (v : String) : List (String × String) :=
  match m with
  | [] => [(k, v)]
  | kv :: rest => if kv.1 = k then (k, v) :: rest else kv :: dictSet rest k v

/-! ## Request building: `_page_offset`, cookies, URL encoding -/

/-- Line 65: `base_url = 'https://www.bing.com/search'`. -/
def base_url : String := "https://www.bing.com/search"

/-- Lines 72-73: `_page_offset(pageno) = (int(pageno) - 1) * 10 + 1`. -/
def _page_offset (pageno : Int) : Int := (pageno - 1) * 10 + 1

/-- Characters `urllib.parse.quote_plus` leaves unescaped (its `safe` argument
is empty for `urlencode`): ASCII alphanumerics and `_.-~`. -/
def isSafeChar (c : Char) : Bool :=
  c.isAlphanum || c = '_' || c = '.' || c = '-' || c = '~'

/-- Uppercase hex digit, for percent escapes (`m < 16` in every use). -/
def hexDigit (m : Nat) : Char :=
  if m < 10 then Char.ofNat (48 + m) else Char.ofNat (55 + m)

/-- Percent-escape of one byte: `%XX`. -/
def percentByte (b : Nat) : List Char := ['%', hexDigit (b / 16), hexDigit (b % 16)]

/-- UTF-8 encoding of one code point (Python `str.encode('utf-8')`, per char). -/
def utf8EncodeChar (c : Char) : List Nat :=
  let n := c.toNat
  if n < 128 then [n]
  else if n < 2048 then [192 + n / 64, 128 + n % 64]
  else if n < 65536 then [224 + n / 4096, 128 + n / 64 % 64, 128 + n % 64]
  else [240 + n / 262144, 128 + n / 4096 % 64, 128 + n / 64 % 64, 128 + n % 64]

/-- UTF-8 encoding of a whole string. -/
def utf8Encode (cs : List Char) : List Nat := cs.flatMap utf8EncodeChar

/-- One character under `urllib.parse.quote_plus`: safe characters pass,
space becomes `+`, everything else is percent-escaped byte by byte. -/
def quotePlusChar (c : Char) : List Char :=
  if isSafeChar c then [c]
  else if c = ' ' then ['+']
  else (utf8EncodeChar c).flatMap percentByte

/-- Model of `urllib.parse.quote_plus` with empty `safe`. -/
def quotePlus (s : String) : String := ⟨s.data.flatMap quotePlusChar⟩

/-- Model of `urllib.parse.urlencode` (each key and value through
`quote_plus`, pairs joined with `&`). -/
def urlencode : List (String × String) → String
  | [] => ""
  | [kv] => quotePlus kv.1 ++ "=" ++ quotePlus kv.2
  | kv :: rest => quotePlus kv.1 ++ "=" ++ quotePlus kv.2 ++ "&" ++ urlencode rest

/-- Fuelled digit accumulator (`fuel > number` always holds at the call
site, so the fuel never runs out). -/
def natToDigitsAux : Nat → Nat → List Char → List Char
  | 0, _, acc => acc
  | fuel + 1, m, acc =>
    if m < 10 then Char.ofNat (48 + m) :: acc
    else natToDigitsAux fuel (m / 10) (Char.ofNat (48 + m % 10) :: acc)

/-- Decimal digits of a natural number, most significant first
(Python `str(n)` for `n >= 0`). -/
def natToDigits (n : Nat) : List Char := natToDigitsAux (n + 1) n []

/-- Model of Python `str(i)` for an `int`. -/
def intRepr (i : Int) : String :=
  if i < 0 then "-" ++ String.mk (natToDigits i.natAbs) else String.mk (natToDigits i.toNat)

/-! ## Engine traits (the Trait Table) -/

/-- The slice of `searx.enginelib.traits.EngineTraits` this engine touches:
the two locale tables, the `all_locale` sentinel, and a transcript of the
diagnostics the refresh code prints. -/
structure EngineTraits where
  languages : List (String × String)
  regions : List (String × String)
  all_locale : Option String
  log : List String
deriving DecidableEq

/-- Modelled from the spec: `EngineTraits.get_region` (class not under `src/`)
"Resolves ProviderLocale from internalLocale via Trait Table; on no match,
uses a documented default" — table lookup with the caller-supplied default. -/
def EngineTraits.get_region (t : EngineTraits) (tag default : String) : String :=
  (dictGet t.regions tag).getD default

/-- Modelled from the spec: `EngineTraits.get_language` (class not under
`src/`), the language-table analogue of `get_region`. -/
def EngineTraits.get_language (t : EngineTraits) (tag default : String) : String :=
  (dictGet t.languages tag).getD default

/-! ## `request` -/

/-- The fields of the `params` dict that `request` reads or writes. -/
structure ReqParams where
  searxng_locale : String
  pageno? : Option Int := none
  time_range? : Option String := none
  cookies : List (String × String) := []
deriving DecidableEq

/-- The observable output of `request`: the cookie jar after
`set_bing_cookies` and the assembled `params['url']`. -/
structure ReqOut where
  cookies : List (String × String)
  url : String
deriving DecidableEq

/-- Python `str.lower()` on the ASCII engine codes it is applied to. -/
def strLower (s : String) : String := ⟨s.data.map Char.toLower⟩

/-- Lines 76-77: `set_bing_cookies` stores
`_EDGE_CD = m=<region.lower()>&u=<language.lower()>;`. -/
def set_bing_cookies (cookies : List (String × String))
    (engine_language engine_region : String) : List (String × String) :=
  dictSet cookies "_EDGE_CD"
    ("m=" ++ strLower engine_region ++ "&u=" ++ strLower engine_language ++ ";")

/-- Line 91: the `time_ranges` dict; `unix_day` is `int(time.time() / 86400)`,
passed in because wall-clock time is external. -/
def time_ranges (unix_day : Int) : List (String × String) :=
  [("day", "1"), ("week", "2"), ("month", "3"),
   ("year", "5_" ++ intRepr (unix_day - 365) ++ "_" ++ intRepr unix_day)]

/-- Lines 80-95: `request(query, params)`.  `traits` is the module-global
trait table and `unix_day` the current day number (both external inputs). -/
def request (query : String) (params : ReqParams) (traits : EngineTraits)
    (unix_day : Int) : ReqOut :=
  let engine_region := traits.get_region params.searxng_locale "en-us"
  let engine_language := traits.get_language params.searxng_locale "en-us"
  let cookies := set_bing_cookies params.cookies engine_language engine_region
  let url := base_url ++ "?" ++
    urlencode [("q", query), ("first", intRepr (_page_offset (params.pageno?.getD 1)))]
  let url :=
    match params.time_range? with
    | none => url
    | some tr =>
      match dictGet (time_ranges unix_day) tr with
      | none => url
      | some code => url ++ "&filters=ex1:\"ez" ++ code ++ "\""
  { cookies := cookies, url := url }

/-! ## base64url (model of `base64.urlsafe_b64encode` / `urlsafe_b64decode`) -/

/-- The urlsafe base64 alphabet, `m < 64` in every use. -/
def b64char (m : Nat) : Char :=
  if m < 26 then Char.ofNat (65 + m)
  else if m < 52 then Char.ofNat (97 + m - 26)
  else if m < 62 then Char.ofNat (48 + m - 52)
  else if m = 62 then '-' else '_'

/-- Inverse alphabet lookup; `none` for characters outside the alphabet. -/
def sextet (c : Char) : Option Nat :=
  if 'A' ≤ c ∧ c ≤ 'Z' then some (c.toNat - 65)
  else if 'a' ≤ c ∧ c ≤ 'z' then some (c.toNat - 97 + 26)
  else if '0' ≤ c ∧ c ≤ '9' then some (c.toNat - 48 + 52)
  else if c = '-' then some 62
  else if c = '_' then some 63
  else none

/-- Unpadded urlsafe base64 encoding of a byte sequence. -/
def b64encode : List Nat → List Char
  | [] => []
  | [b0] => [b64char (b0 / 4), b64char (b0 % 4 * 16)]
  | [b0, b1] => [b64char (b0 / 4), b64char (b0 % 4 * 16 + b1 / 16), b64char (b1 % 16 * 4)]
  | b0 :: b1 :: b2 :: rest =>
    b64char (b0 / 4) :: b64char (b0 % 4 * 16 + b1 / 16) ::
    b64char (b1 % 16 * 4 + b2 / 64) :: b64char (b2 % 64) :: b64encode rest

/-- Model of `base64.urlsafe_b64decode` on a correctly `=`-padded input:
groups of four symbols yield three bytes, a final `xx==` group one byte and a
final `xxx=` group two bytes; anything else (wrong length, stray characters,
misplaced padding) fails. -/
def b64decode : List Char → Option (List Nat)
  | [] => some []
  | c0 :: c1 :: c2 :: c3 :: rest =>
    match sextet c0, sextet c1 with
    | some s0, some s1 =>
      if c2 = '=' then
        if c3 = '=' ∧ rest = [] then some [s0 * 4 + s1 / 16] else none
      else
        match sextet c2 with
        | some s2 =>
          if c3 = '=' then
            if rest = [] then some [s0 * 4 + s1 / 16, s1 % 16 * 16 + s2 / 4] else none
          else
            match sextet c3, b64decode rest with
            | some s3, some tail =>
              some ((s0 * 4 + s1 / 16) :: (s1 % 16 * 16 + s2 / 4) :: (s2 % 4 * 64 + s3) :: tail)
            | _, _ => none
        | none => none
    | _, _ => none
  | _ => none

/-! ## UTF-8 decoding (model of strict `bytes.decode()`) -/

/-- Unicode scalar values: everything below `0x110000` except surrogates. -/
def validScalar (n : Nat) : Bool :=
  n < 55296 || (57344 ≤ n && n < 1114112)

/-- Strict UTF-8 decoding, fuelled (the fuel only has to dominate the number
of decoded characters; every call site passes the byte count): rejects stray
or missing continuation bytes, overlong forms, surrogates and out-of-range
values, exactly as Python `bytes.decode()` does.  Continuation bytes are
accessed through `headD`/`tail` guarded by an explicit length check, which is
equivalent to pattern matching on one to three further bytes. -/
def utf8DecodeFuel : Nat → List Nat → Option (List Char)
  | _, [] => some []
  | 0, _ :: _ => none
  | fuel + 1, b :: bs =>
    if b < 128 then (utf8DecodeFuel fuel bs).map (fun cs => Char.ofNat b :: cs)
    else if b < 194 then none
    else if b < 224 then
      let b1 := bs.headD 0
      if 1 ≤ bs.length ∧ (128 ≤ b1 ∧ b1 < 192) then
        (utf8DecodeFuel fuel bs.tail).map
          (fun cs => Char.ofNat ((b - 192) * 64 + (b1 - 128)) :: cs)
      else none
    else if b < 240 then
      let b1 := bs.headD 0
      let b2 := bs.tail.headD 0
      if 2 ≤ bs.length ∧ (128 ≤ b1 ∧ b1 < 192) ∧ (128 ≤ b2 ∧ b2 < 192) then
        let n := (b - 224) * 4096 + (b1 - 128) * 64 + (b2 - 128)
        if 2048 ≤ n ∧ validScalar n then
          (utf8DecodeFuel fuel bs.tail.tail).map (fun cs => Char.ofNat n :: cs)
        else none
      else none
    else if b < 245 then
      let b1 := bs.headD 0
      let b2 := bs.tail.headD 0
      let b3 := bs.tail.tail.headD 0
      if 3 ≤ bs.length ∧ (128 ≤ b1 ∧ b1 < 192) ∧ (128 ≤ b2 ∧ b2 < 192) ∧
          (128 ≤ b3 ∧ b3 < 192) then
        let n := (b - 240) * 262144 + (b1 - 128) * 4096 + (b2 - 128) * 64 + (b3 - 128)
        if 65536 ≤ n ∧ n < 1114112 then
          (utf8DecodeFuel fuel bs.tail.tail.tail).map (fun cs => Char.ofNat n :: cs)
        else none
      else none
    else none

/-- Strict UTF-8 decoding of a byte sequence (`bytes.decode()`). -/
def utf8Decode (bs : List Nat) : Option (List Char) := utf8DecodeFuel bs.length bs

/-! ## URL query parsing (model of `urllib.parse.urlparse` / `parse_qs`) -/

/-- Characters after the first occurrence of `x` (empty if `x` is absent). -/
def afterFirst (x : Char) : List Char → List Char
  | [] => []
  | c :: cs => if c = x then cs else afterFirst x cs

/-- Characters before the first occurrence of `x` (all of them if absent). -/
def beforeFirst (x : Char) (l : List Char) : List Char := l.takeWhile (fun c => c ≠ x)

/-- Query component of `urllib.parse.urlparse`: the text after the first `?`,
truncated at the fragment separator `#`. -/
def urlparse_query (url : List Char) : List Char :=
  afterFirst '?' (beforeFirst '#' url)

/-- Python `str.split(sep)` for a one-character separator
(`"a&&b".split('&') = ["a", "", "b"]`). -/
def splitOnChar (x : Char) : List Char → List (List Char)
  | [] => [[]]
  | c :: cs =>
    if c = x then [] :: splitOnChar x cs
    else (c :: (splitOnChar x cs).headD []) :: (splitOnChar x cs).tail

/-- One `name=value` field of a query string, as `urllib.parse.parse_qsl`
treats it: fields without `=` or with an empty value are dropped
(`keep_blank_values` is false); the split is at the first `=`.  Percent or
plus decoding of names and values is identity on every input the engine
produces (base64url alphabet and digits), so it is omitted here. -/
def parseField (field : List Char) : Option (String × List Char) :=
  if field.contains '=' then
    let name := beforeFirst '=' field
    let value := (afterFirst '=' field)
    if value.isEmpty then none else some (⟨name⟩, value)
  else none

/-- The `(name, value)` pairs of a query string in order, as
`urllib.parse.parse_qs` collects them. -/
def parse_qs_pairs (qs : List Char) : List (String × List Char) :=
  (splitOnChar '&' qs).filterMap
    (fun f => if f.isEmpty then none else parseField f)

/-- Python `parse_qs(qs)[name][0]`: the first value of `name`;
`none` models the `KeyError` when the parameter is absent. -/
def qsFirst (qs : List Char) (name : String) : Option (List Char) :=
  ((parse_qs_pairs qs).find? (fun kv => kv.1 = name)).map (fun kv => kv.2)

/-! ## Redirect-URL decoding (response lines 124-134) -/

/-- Line 124: the provider's indirection marker. -/
def ck_url_mark : String := "https://www.bing.com/ck/a?"

/-- Python `s.startswith(p)` on code-point sequences. -/
def strStartsWith (s p : String) : Bool := p.data.isPrefixOf s.data

/-- Lines 126-134 of `response`: extract the first value of query parameter
`u`, drop the two-character scheme tag, pad with `=` to a multiple of four,
base64url-decode, UTF-8-decode.  Each failing step is an uncaught Python
exception, modelled as `Except.error`. -/
def decodeBingUrl (url : String) : Except String String :=
  match qsFirst (urlparse_query url.data) "u" with
  | none => .error "KeyError: u"
  | some param_u =>
    let encoded_url := param_u.drop 2
    let encoded_url := encoded_url ++ List.replicate ((4 - encoded_url.length % 4) % 4) '='
    match b64decode encoded_url with
    | none => .error "binascii.Error"
    | some bs =>
      match utf8Decode bs with
      | none => .error "UnicodeDecodeError"
      | some cs => .ok ⟨cs⟩

/-- The provider's indirection scheme, as the spec describes it: the true
destination URL wrapped as `https://www.bing.com/ck/a?u=a1<base64url>` with
the unpadded base64url encoding of the UTF-8 bytes of the URL. -/
def bingWrap (u : String) : String :=
  ck_url_mark ++ "u=a1" ++ String.mk (b64encode (utf8Encode u.data))

/-! ## `response` -/

/-- A result block's `.//h2/a` element, abstracted at the `searx.utils`
boundary: its `href` attribute (`None` when absent, as `attrib.get` returns)
and its `extract_text` value. -/
structure Link where
  href? : Option String
  title : String
deriving DecidableEq

/-- One `li.b_algo` result block, abstracted at the `searx.utils` boundary:
the optional title link and the snippet text that lines 116-121 extract
(first `p` element, nested `a` elements removed, then `extract_text`). -/
structure Block where
  link? : Option Link
  content : String
deriving DecidableEq

/-- The parsed document, abstracted into the two XPath extractions `response`
performs: the `li.b_algo` blocks in document order, and the concatenated text
of the `span.sb_count` element (empty when the element is absent). -/
structure SearchDom where
  blocks : List Block
  sb_count_text : String
deriving DecidableEq

/-- The response object: parsed document plus the echo of the request's
`pageno` (`resp.search_params`), absent when the caller set none. -/
structure Resp where
  dom : SearchDom
  pageno? : Option Int
deriving DecidableEq

/-- An element of the list `response` returns: either a result record or the
terminal `number_of_results` pseudo-record. -/
inductive ResultItem where
  | record (url title content : String)
  | count (number_of_results : Nat)
deriving DecidableEq

instance decEqExcept {ε α : Type} [DecidableEq ε] [DecidableEq α] :
    DecidableEq (Except ε α) := fun x y =>
  match x, y with
  | .error a, .error b =>
    if h : a = b then isTrue (by rw [h])
    else isFalse (by intro hc; injection hc; contradiction)
  | .ok a, .ok b =>
    if h : a = b then isTrue (by rw [h])
    else isFalse (by intro hc; injection hc; contradiction)
  | .error _, .ok _ => isFalse (by intro hc; injection hc)
  | .ok _, .error _ => isFalse (by intro hc; injection hc)

/-- Lines 110-137 of `response`, for one block: `none` when the block has no
title link (the loop's `continue`); otherwise the record, or the uncaught
exception the URL handling raises (`startswith` on a `None` href, or a
failing redirect decode of a wrapper URL). -/
def extractBlock (b : Block) : Option (Except String ResultItem) :=
  match b.link? with
  | none => none
  | some link =>
    match link.href? with
    | none => some (.error "AttributeError: NoneType")
    | some url =>
      match (if strStartsWith url ck_url_mark then decodeBingUrl url else .ok url) with
      | .error e => some (.error e)
      | .ok u => some (.ok (.record u link.title b.content))

/-- Lines 108-137 of `response`: the per-block loop.  A block without a title
link is skipped; a per-block exception aborts the whole call (there is no
`try` around the loop), modelled by propagating `Except.error`. -/
def extractRecords : List Block → Except String (List ResultItem)
  | [] => .ok []
  | b :: bs =>
    match extractBlock b with
    | none => extractRecords bs
    | some (.error e) => .error e
    | some (.ok r) =>
      match extractRecords bs with
      | .error e => .error e
      | .ok rest => .ok (r :: rest)

/-- Digits-to-integer, Python `int` on a nonempty digit string. -/
def natOfDigits (ds : List Char) : Nat :=
  ds.foldl (fun a c => a * 10 + (c.toNat - 48)) 0

/-- Lines 142-145 of `response`: if the count text contains `-`, drop
`find('-') * 2 + 2` leading characters (removing the `X-Y` range part). -/
def countStripped (l : List Char) : List Char :=
  if l.contains '-' then l.drop (l.indexOf '-' * 2 + 2) else l

/-- Line 147: `re.sub('[^0-9]', '', s)` on the stripped count text. -/
def countDigits (s : String) : List Char :=
  (countStripped s.data).filter Char.isDigit

/-- Lines 140-150 of `response`: the total-count extraction.  If digits
remain after stripping, parse them, otherwise `result_len` keeps its initial
value `0`.  No step can raise on a string input, so the surrounding `try`
never fires in the model. -/
def countFromText (s : String) : Nat :=
  if (countDigits s).isEmpty then 0 else natOfDigits (countDigits s)

/-- Lines 98-163: `response(resp)`.  Records are extracted in document order;
then the pagination guard (line 155) compares `_page_offset` of the echoed
`pageno` (default `0`) against a nonzero extracted count and returns `[]`
when the offset is larger; otherwise the `number_of_results` pseudo-record is
appended. -/
def response (resp : Resp) : Except String (List ResultItem) :=
  match extractRecords resp.dom.blocks with
  | .error e => .error e
  | .ok results =>
    let result_len := countFromText resp.dom.sb_count_text
    if result_len ≠ 0 ∧ _page_offset (resp.pageno?.getD 0) > (result_len : Int) then
      .ok []
    else
      .ok (results ++ [.count result_len])

/-! ## Trait-table refresh (`_fetch_traits`, lines 189-236) -/

/-- Line 196: `map_lang = {'jp': 'ja'}`, applied through `.get(eng, eng)`. -/
def map_lang (s : String) : String := if s = "jp" then "ja" else s

/-- Lines 215-218: `map_region`, applied through `.get(eng, eng)`. -/
def map_region (s : String) : String :=
  if s = "en-ID" then "id_ID" else if s = "no-NO" then "nb_NO" else s

/-- Python `str.replace('-', '_')`. -/
def underscore (s : String) : String :=
  ⟨s.data.map (fun c => if c = '-' then '_' else c)⟩

/-- Lines 206-211 and 231-236: the conflict check and insertion both loops
share, on one table with its diagnostics.  `if conflict:` is Python
truthiness: an absent key or an empty stored code both fall through to the
assignment; a differing truthy stored code is kept and logged. -/
def conflict_update (table : List (String × String)) (log : List String)
    (sxng_tag eng : String) : List (String × String) × List String :=
  match dictGet table sxng_tag with
  | some conflict =>
    if conflict ≠ "" then
      if conflict ≠ eng then
        (table, log ++ ["CONFLICT: babel " ++ sxng_tag ++ " --> " ++ conflict ++ ", " ++ eng])
      else (table, log)
    else (dictSet table sxng_tag eng, log)
  | none => (dictSet table sxng_tag eng, log)

/-- Lines 197-211: one iteration of the language loop.  `parse` stands for
`language_tag(babel.Locale.parse(.))` (external); `none` models
`UnknownLocaleError`. -/
def language_step (parse : String → Option String) (t : EngineTraits)
    (eng_lang : String) : EngineTraits :=
  if eng_lang = "en-gb" ∨ eng_lang = "pt-br" then t
  else
    match parse (underscore (map_lang eng_lang)) with
    | none =>
      { t with log := t.log ++ ["ERROR: language (" ++ eng_lang ++ ") is unknown by babel"] }
    | some sxng_tag =>
      let r := conflict_update t.languages t.log sxng_tag eng_lang
      { t with languages := r.1, log := r.2 }

/-- Lines 220-236: one iteration of the region loop; `en-WW` is diverted into
the `all_locale` sentinel before `babel` parsing, everything else mirrors the
language loop on the regions table. -/
def region_step (parse : String → Option String) (t : EngineTraits)
    (eng_region : String) : EngineTraits :=
  if eng_region = "en-WW" then { t with all_locale := some eng_region }
  else
    match parse (underscore (map_region eng_region)) with
    | none =>
      { t with log := t.log ++ ["ERROR: region (" ++ eng_region ++ ") is unknown by babel"] }
    | some sxng_tag =>
      let r := conflict_update t.regions t.log sxng_tag eng_region
      { t with regions := r.1, log := r.2 }

/-- Lines 180-236: `_fetch_traits`.  The two `td.text` column extractions are
passed in as string lists (the reference document and `lxml` are external),
and the two `babel` resolution pipelines as functions.  The `zh` alias is
inserted first, then the language column is folded, then the market column. -/
def _fetch_traits (parse_lang parse_region : String → Option String)
    (language_tds market_tds : List String) (t : EngineTraits) : EngineTraits :=
  let t := { t with languages := dictSet t.languages "zh" "zh-hans" }
  let t := language_tds.foldl (language_step parse_lang) t
  market_tds.foldl (region_step parse_region) t

/-- A page with one well-formed result block followed by a block whose wrapper
URL has no `u` parameter. -/
def respFailingBlock : Resp :=
  ⟨⟨[⟨some ⟨some "https://example.org/a", "t1"⟩, "c1"⟩,
     ⟨some ⟨some "https://www.bing.com/ck/a?x=1", "t2"⟩, "c2"⟩], "about 2 results"⟩, some 1⟩

/-! ## Helper lemmas -/

theorem dictGet_dictSet_self (m : List (String × String)) (k v : String) :
    dictGet (dictSet m k v) k = some v := by
  induction m with
  | nil => simp [dictSet, dictGet]
  | cons kv rest ih =>
    by_cases h : kv.1 = k
    · simp [dictSet, h, dictGet]
    · simp [dictSet, h, dictGet, ih]

theorem dictGet_dictSet_ne (m : List (String × String)) (k k' v : String) (h : k ≠ k') :
    dictGet (dictSet m k v) k' = dictGet m k' := by
  induction m with
  | nil => simp [dictSet, dictGet, h]
  | cons kv rest ih =>
    by_cases hk : kv.1 = k
    · simp [dictSet, hk, dictGet, h]
    · simp [dictSet, hk, dictGet, ih]

theorem utf8EncodeChar_lt (c : Char) : ∀ b ∈ utf8EncodeChar c, b < 256 := by
  intro b hb
  have hv : c.toNat < 55296 ∨ (57343 < c.toNat ∧ c.toNat < 1114112) := c.valid
  unfold utf8EncodeChar at hb
  by_cases h1 : c.toNat < 128
  · rw [if_pos h1] at hb; simp at hb; omega
  · rw [if_neg h1] at hb
    by_cases h2 : c.toNat < 2048
    · rw [if_pos h2] at hb; simp at hb; rcases hb with hb | hb <;> omega
    · rw [if_neg h2] at hb
      by_cases h3 : c.toNat < 65536
      · rw [if_pos h3] at hb; simp at hb; rcases hb with hb | hb | hb <;> omega
      · rw [if_neg h3] at hb; simp at hb; rcases hb with hb | hb | hb | hb <;> omega

theorem digitChar_isDigit : ∀ k, k < 10 → (Char.ofNat (48 + k)).isDigit = true := by decide

theorem natToDigitsAux_mem : ∀ (fuel m : Nat) (acc : List Char) (c : Char),
    c ∈ natToDigitsAux fuel m acc → c.isDigit = true ∨ c ∈ acc := by
  intro fuel
  induction fuel with
  | zero => intro m acc c hc; exact Or.inr hc
  | succ f ih =>
    intro m acc c hc
    unfold natToDigitsAux at hc
    by_cases h : m < 10
    · rw [if_pos h] at hc
      rcases List.mem_cons.mp hc with hm | hm
      · subst hm
        exact Or.inl (digitChar_isDigit m h)
      · exact Or.inr hm
    · rw [if_neg h] at hc
      rcases ih (m / 10) _ c hc with hd | hm
      · exact Or.inl hd
      · rcases List.mem_cons.mp hm with hm | hm
        · subst hm
          exact Or.inl (digitChar_isDigit (m % 10) (Nat.mod_lt _ (by omega)))
        · exact Or.inr hm

theorem natToDigits_digit : ∀ (m : Nat), ∀ c ∈ natToDigits m, c.isDigit = true := by
  intro m c hc
  rcases natToDigitsAux_mem _ _ _ c hc with h | h
  · exact h
  · exact absurd h (List.not_mem_nil c)

theorem natToDigitsAux_ne_nil : ∀ (fuel m : Nat) (acc : List Char), acc ≠ [] →
    natToDigitsAux fuel m acc ≠ [] := by
  intro fuel
  induction fuel with
  | zero => intro m acc h; exact h
  | succ f ih =>
    intro m acc h
    unfold natToDigitsAux
    by_cases hm : m < 10
    · simp [hm]
    · rw [if_neg hm]
      exact ih (m / 10) _ (by simp)

theorem natToDigits_ne_nil (m : Nat) : natToDigits m ≠ [] := by
  unfold natToDigits natToDigitsAux
  by_cases h : m < 10
  · simp [h]
  · rw [if_neg h]
    exact natToDigitsAux_ne_nil _ _ _ (by simp)

theorem isSafeChar_of_digit {c : Char} (h : c.isDigit = true) : isSafeChar c = true := by
  simp [isSafeChar, Char.isAlphanum, h]

theorem intRepr_safe (i : Int) : ∀ c ∈ (intRepr i).data, isSafeChar c = true := by
  intro c hc
  unfold intRepr at hc
  by_cases h : i < 0
  · rw [if_pos h] at hc
    rw [String.data_append] at hc
    rcases List.mem_append.mp hc with hm | hm
    · simp at hm
      subst hm
      decide
    · exact isSafeChar_of_digit (natToDigits_digit _ c hm)
  · rw [if_neg h] at hc
    exact isSafeChar_of_digit (natToDigits_digit _ c hc)

theorem intRepr_ne_nil (i : Int) : (intRepr i).data ≠ [] := by
  unfold intRepr
  by_cases h : i < 0
  · rw [if_pos h]
    simp
  · rw [if_neg h]
    exact natToDigits_ne_nil _

theorem safe_not_special {c : Char} (h : isSafeChar c = true) :
    c ≠ '&' ∧ c ≠ '=' ∧ c ≠ '?' ∧ c ≠ '#' := by
  refine ⟨?_, ?_, ?_, ?_⟩ <;> rintro rfl <;> simp [isSafeChar] at h

theorem quotePlusChar_of_safe {c : Char} (h : isSafeChar c = true) :
    quotePlusChar c = [c] := by
  unfold quotePlusChar
  rw [if_pos h]

theorem quotePlus_of_safe {s : String} (h : ∀ c ∈ s.data, isSafeChar c = true) :
    quotePlus s = s := by
  have hl : ∀ (l : List Char), (∀ c ∈ l, isSafeChar c = true) →
      l.flatMap quotePlusChar = l := by
    intro l
    induction l with
    | nil => intro _; rfl
    | cons c cs ih =>
      intro hcs
      rw [List.flatMap_cons, quotePlusChar_of_safe (hcs c (List.mem_cons_self c cs)),
        ih (fun x hx => hcs x (List.mem_cons_of_mem _ hx))]
      rfl
  cases s with
  | mk data =>
    apply String.ext
    exact hl data h

theorem quotePlus_intRepr (i : Int) : quotePlus (intRepr i) = intRepr i :=
  quotePlus_of_safe (intRepr_safe i)

theorem quotePlusChar_not_special {c c' : Char} (h : c' ∈ quotePlusChar c) :
    c' ≠ '&' ∧ c' ≠ '=' ∧ c' ≠ '?' ∧ c' ≠ '#' := by
  have hhex : ∀ m, m < 16 →
      hexDigit m ≠ '&' ∧ hexDigit m ≠ '=' ∧ hexDigit m ≠ '?' ∧ hexDigit m ≠ '#' := by decide
  unfold quotePlusChar at h
  by_cases hs : isSafeChar c = true
  · rw [if_pos hs] at h
    simp at h
    subst h
    exact safe_not_special hs
  · rw [if_neg hs] at h
    by_cases hsp : c = ' '
    · rw [if_pos hsp] at h
      simp at h
      subst h
      exact ⟨by decide, by decide, by decide, by decide⟩
    · rw [if_neg hsp] at h
      rcases List.mem_flatMap.mp h with ⟨b, hb, hc'⟩
      have hb256 : b < 256 := utf8EncodeChar_lt c b hb
      unfold percentByte at hc'
      simp only [List.mem_cons, List.not_mem_nil, or_false] at hc'
      rcases hc' with hc' | hc' | hc'
      · subst hc'; exact ⟨by decide, by decide, by decide, by decide⟩
      · subst hc'; exact hhex _ (by omega)
      · subst hc'; exact hhex _ (by omega)

theorem quotePlus_not_special {s : String} {c' : Char} (h : c' ∈ (quotePlus s).data) :
    c' ≠ '&' ∧ c' ≠ '=' ∧ c' ≠ '?' ∧ c' ≠ '#' := by
  unfold quotePlus at h
  rcases List.mem_flatMap.mp h with ⟨c, _, hc'⟩
  exact quotePlusChar_not_special hc'

theorem isPrefixOf_append (l₁ l₂ : List Char) : l₁.isPrefixOf (l₁ ++ l₂) = true := by
  induction l₁ with
  | nil => simp [List.isPrefixOf]
  | cons c cs ih => simp [List.isPrefixOf, ih]

theorem afterFirst_append (x : Char) (l₁ l₂ : List Char) (h : x ∉ l₁) :
    afterFirst x (l₁ ++ x :: l₂) = l₂ := by
  induction l₁ with
  | nil => simp [afterFirst]
  | cons c cs ih =>
    have hcx : ¬(c = x) := fun hc => h (hc ▸ List.mem_cons_self c cs)
    rw [List.cons_append]
    unfold afterFirst
    rw [if_neg hcx]
    exact ih (fun hm => h (List.mem_cons_of_mem _ hm))

theorem beforeFirst_of_not_mem (x : Char) (l : List Char) (h : x ∉ l) :
    beforeFirst x l = l := by
  induction l with
  | nil => rfl
  | cons c cs ih =>
    have hcx : ¬(c = x) := fun hc => h (hc ▸ List.mem_cons_self c cs)
    unfold beforeFirst at ih ⊢
    rw [List.takeWhile_cons, if_pos (by simp [hcx]),
      ih (fun hm => h (List.mem_cons_of_mem _ hm))]

theorem beforeFirst_append (x : Char) (l₁ l₂ : List Char) (h : x ∉ l₁) :
    beforeFirst x (l₁ ++ x :: l₂) = l₁ := by
  induction l₁ with
  | nil => simp [beforeFirst]
  | cons c cs ih =>
    have hcx : ¬(c = x) := fun hc => h (hc ▸ List.mem_cons_self c cs)
    unfold beforeFirst at ih ⊢
    rw [List.cons_append, List.takeWhile_cons, if_pos (by simp [hcx]),
      ih (fun hm => h (List.mem_cons_of_mem _ hm))]

theorem splitOnChar_of_not_mem (x : Char) (l : List Char) (h : x ∉ l) :
    splitOnChar x l = [l] := by
  induction l with
  | nil => rfl
  | cons c cs ih =>
    have hcx : ¬(c = x) := fun hc => h (hc ▸ List.mem_cons_self c cs)
    conv_lhs => unfold splitOnChar
    rw [if_neg hcx, ih (fun hm => h (List.mem_cons_of_mem _ hm))]
    rfl

theorem splitOnChar_append (x : Char) (l₁ l₂ : List Char) (h : x ∉ l₁) :
    splitOnChar x (l₁ ++ x :: l₂) = l₁ :: splitOnChar x l₂ := by
  induction l₁ with
  | nil => simp [splitOnChar]
  | cons c cs ih =>
    have hcx : ¬(c = x) := fun hc => h (hc ▸ List.mem_cons_self c cs)
    rw [List.cons_append]
    conv_lhs => unfold splitOnChar
    rw [if_neg hcx, ih (fun hm => h (List.mem_cons_of_mem _ hm))]
    rfl

theorem parseField_append (n v : List Char) (hn : '=' ∉ n) (hv : v ≠ []) :
    parseField (n ++ '=' :: v) = some (⟨n⟩, v) := by
  unfold parseField
  have hcont : (n ++ '=' :: v).contains '=' = true :=
    List.elem_eq_true_of_mem (by simp)
  rw [if_pos hcont, beforeFirst_append _ _ _ hn, afterFirst_append _ _ _ hn]
  cases v with
  | nil => exact absurd rfl hv
  | cons a as => rfl

theorem sextet_b64char : ∀ m, m < 64 → sextet (b64char m) = some m := by decide

theorem b64char_ne : ∀ m, m < 64 →
    b64char m ≠ '=' ∧ b64char m ≠ '&' ∧ b64char m ≠ '?' ∧ b64char m ≠ '#' := by decide

theorem b64encode_mem : ∀ (bs : List Nat), (∀ b ∈ bs, b < 256) →
    ∀ c ∈ b64encode bs, ∃ m, m < 64 ∧ c = b64char m
  | [] => by
    intro _ c hc
    simp [b64encode] at hc
  | [b0] => by
    intro hb c hc
    have h0 : b0 < 256 := hb b0 (by simp)
    simp only [b64encode, List.mem_cons, List.not_mem_nil, or_false] at hc
    rcases hc with hc | hc
    · exact ⟨b0 / 4, by omega, hc⟩
    · exact ⟨b0 % 4 * 16, by omega, hc⟩
  | [b0, b1] => by
    intro hb c hc
    have h0 : b0 < 256 := hb b0 (by simp)
    have h1 : b1 < 256 := hb b1 (by simp)
    simp only [b64encode, List.mem_cons, List.not_mem_nil, or_false] at hc
    rcases hc with hc | hc | hc
    · exact ⟨b0 / 4, by omega, hc⟩
    · exact ⟨b0 % 4 * 16 + b1 / 16, by omega, hc⟩
    · exact ⟨b1 % 16 * 4, by omega, hc⟩
  | b0 :: b1 :: b2 :: rest => by
    intro hb c hc
    have h0 : b0 < 256 := hb b0 (by simp)
    have h1 : b1 < 256 := hb b1 (by simp)
    have h2 : b2 < 256 := hb b2 (by simp)
    have henc : b64encode (b0 :: b1 :: b2 :: rest) =
        b64char (b0 / 4) :: b64char (b0 % 4 * 16 + b1 / 16) ::
        b64char (b1 % 16 * 4 + b2 / 64) :: b64char (b2 % 64) :: b64encode rest := rfl
    rw [henc] at hc
    simp only [List.mem_cons] at hc
    rcases hc with hc | hc | hc | hc | hc
    · exact ⟨b0 / 4, by omega, hc⟩
    · exact ⟨b0 % 4 * 16 + b1 / 16, by omega, hc⟩
    · exact ⟨b1 % 16 * 4 + b2 / 64, by omega, hc⟩
    · exact ⟨b2 % 64, by omega, hc⟩
    · exact b64encode_mem rest (fun b hbm => hb b (by simp [hbm])) c hc

theorem b64encode_not_special {bs : List Nat} (hb : ∀ b ∈ bs, b < 256)
    {c : Char} (hc : c ∈ b64encode bs) :
    c ≠ '=' ∧ c ≠ '&' ∧ c ≠ '?' ∧ c ≠ '#' := by
  rcases b64encode_mem bs hb c hc with ⟨m, hm, rfl⟩
  exact b64char_ne m hm

theorem b64decode_pad_encode : ∀ (bs : List Nat), (∀ b ∈ bs, b < 256) →
    b64decode (b64encode bs ++
      List.replicate ((4 - (b64encode bs).length % 4) % 4) '=') = some bs
  | [] => by intro _; decide
  | [b0] => by
    intro hb
    have h0 : b0 < 256 := hb b0 (by simp)
    have hs0 : sextet (b64char (b0 / 4)) = some (b0 / 4) := sextet_b64char _ (by omega)
    have hs1 : sextet (b64char (b0 % 4 * 16)) = some (b0 % 4 * 16) :=
      sextet_b64char _ (by omega)
    show b64decode [b64char (b0 / 4), b64char (b0 % 4 * 16), '=', '='] = some [b0]
    simp only [b64decode, hs0, hs1]
    norm_num
    omega
  | [b0, b1] => by
    intro hb
    have h0 : b0 < 256 := hb b0 (by simp)
    have h1 : b1 < 256 := hb b1 (by simp)
    have hs0 : sextet (b64char (b0 / 4)) = some (b0 / 4) := sextet_b64char _ (by omega)
    have hs1 : sextet (b64char (b0 % 4 * 16 + b1 / 16)) = some (b0 % 4 * 16 + b1 / 16) :=
      sextet_b64char _ (by omega)
    have hs2 : sextet (b64char (b1 % 16 * 4)) = some (b1 % 16 * 4) :=
      sextet_b64char _ (by omega)
    have hne : b64char (b1 % 16 * 4) ≠ '=' := (b64char_ne _ (by omega)).1
    show b64decode [b64char (b0 / 4), b64char (b0 % 4 * 16 + b1 / 16),
      b64char (b1 % 16 * 4), '='] = some [b0, b1]
    simp only [b64decode, hs0, hs1, hs2, if_neg hne]
    norm_num
    constructor <;> omega
  | b0 :: b1 :: b2 :: rest => by
    intro hb
    have h0 : b0 < 256 := hb b0 (by simp)
    have h1 : b1 < 256 := hb b1 (by simp)
    have h2 : b2 < 256 := hb b2 (by simp)
    have hs0 : sextet (b64char (b0 / 4)) = some (b0 / 4) := sextet_b64char _ (by omega)
    have hs1 : sextet (b64char (b0 % 4 * 16 + b1 / 16)) = some (b0 % 4 * 16 + b1 / 16) :=
      sextet_b64char _ (by omega)
    have hs2 : sextet (b64char (b1 % 16 * 4 + b2 / 64)) = some (b1 % 16 * 4 + b2 / 64) :=
      sextet_b64char _ (by omega)
    have hs3 : sextet (b64char (b2 % 64)) = some (b2 % 64) := sextet_b64char _ (by omega)
    have hne2 : b64char (b1 % 16 * 4 + b2 / 64) ≠ '=' := (b64char_ne _ (by omega)).1
    have hne3 : b64char (b2 % 64) ≠ '=' := (b64char_ne _ (by omega)).1
    have ih := b64decode_pad_encode rest (fun b hbm => hb b (by simp [hbm]))
    have henc : b64encode (b0 :: b1 :: b2 :: rest) =
        b64char (b0 / 4) :: b64char (b0 % 4 * 16 + b1 / 16) ::
        b64char (b1 % 16 * 4 + b2 / 64) :: b64char (b2 % 64) :: b64encode rest := rfl
    have hpad : (4 - (b64encode (b0 :: b1 :: b2 :: rest)).length % 4) % 4 =
        (4 - (b64encode rest).length % 4) % 4 := by
      rw [henc]
      simp only [List.length_cons]
      omega
    rw [hpad, henc]
    simp only [List.cons_append]
    simp only [b64decode, hs0, hs1, hs2, hs3, if_neg hne2, if_neg hne3, ih]
    norm_num
    refine ⟨by omega, by omega, by omega⟩

theorem utf8Encode_lt (cs : List Char) : ∀ b ∈ utf8Encode cs, b < 256 := by
  intro b hb
  rcases List.mem_flatMap.mp hb with ⟨c, _, hbc⟩
  exact utf8EncodeChar_lt c b hbc

theorem validScalar_toNat (c : Char) : validScalar c.toNat = true := by
  have hv : c.toNat < 55296 ∨ (57343 < c.toNat ∧ c.toNat < 1114112) := c.valid
  unfold validScalar
  simp only [Bool.or_eq_true, Bool.and_eq_true, decide_eq_true_eq]
  omega

theorem utf8DecodeFuel_encodeChar (fuel : Nat) (c : Char) (bs : List Nat) :
    utf8DecodeFuel (fuel + 1) (utf8EncodeChar c ++ bs) =
      (utf8DecodeFuel fuel bs).map (fun cs => c :: cs) := by
  have hv : c.toNat < 55296 ∨ (57343 < c.toNat ∧ c.toNat < 1114112) := c.valid
  have hval := validScalar_toNat c
  unfold utf8EncodeChar
  by_cases h1 : c.toNat < 128
  · rw [if_pos h1]
    simp only [List.cons_append, List.nil_append]
    rw [utf8DecodeFuel, if_pos h1, Char.ofNat_toNat]
  · rw [if_neg h1]
    by_cases h2 : c.toNat < 2048
    · rw [if_pos h2]
      simp only [List.cons_append, List.nil_append]
      rw [utf8DecodeFuel, if_neg (by omega), if_neg (by omega), if_pos (by omega)]
      simp only [List.headD_cons, List.tail_cons, List.length_cons]
      rw [if_pos ⟨by omega, by omega, by omega⟩]
      have harg : (192 + c.toNat / 64 - 192) * 64 + (128 + c.toNat % 64 - 128) =
          c.toNat := by omega
      rw [harg, Char.ofNat_toNat]
    · rw [if_neg h2]
      by_cases h3 : c.toNat < 65536
      · rw [if_pos h3]
        simp only [List.cons_append, List.nil_append]
        rw [utf8DecodeFuel, if_neg (by omega), if_neg (by omega), if_neg (by omega),
          if_pos (by omega)]
        simp only [List.headD_cons, List.tail_cons, List.length_cons]
        rw [if_pos ⟨by omega, ⟨by omega, by omega⟩, by omega, by omega⟩]
        have harg : (224 + c.toNat / 4096 - 224) * 4096 +
            (128 + c.toNat / 64 % 64 - 128) * 64 + (128 + c.toNat % 64 - 128) =
            c.toNat := by omega
        rw [harg, if_pos ⟨by omega, hval⟩, Char.ofNat_toNat]
      · rw [if_neg h3]
        have h4 : c.toNat < 1114112 := by omega
        simp only [List.cons_append, List.nil_append]
        rw [utf8DecodeFuel, if_neg (by omega), if_neg (by omega), if_neg (by omega),
          if_neg (by omega), if_pos (by omega)]
        simp only [List.headD_cons, List.tail_cons, List.length_cons]
        rw [if_pos ⟨by omega, ⟨by omega, by omega⟩, ⟨by omega, by omega⟩, by omega, by omega⟩]
        have harg : (240 + c.toNat / 262144 - 240) * 262144 +
            (128 + c.toNat / 4096 % 64 - 128) * 4096 +
            (128 + c.toNat / 64 % 64 - 128) * 64 + (128 + c.toNat % 64 - 128) =
            c.toNat := by omega
        rw [harg, if_pos ⟨by omega, by omega⟩, Char.ofNat_toNat]

theorem utf8DecodeFuel_encode : ∀ (cs : List Char) (fuel : Nat), cs.length ≤ fuel →
    utf8DecodeFuel fuel (utf8Encode cs) = some cs := by
  intro cs
  induction cs with
  | nil =>
    intro fuel _
    cases fuel <;> rfl
  | cons c rest ih =>
    intro fuel hfuel
    cases fuel with
    | zero => exact absurd hfuel (by simp)
    | succ f =>
      unfold utf8Encode at ih ⊢
      rw [List.flatMap_cons, utf8DecodeFuel_encodeChar f c (rest.flatMap utf8EncodeChar),
        ih f (by simp at hfuel; omega)]
      rfl

theorem utf8EncodeChar_length_pos (c : Char) : 1 ≤ (utf8EncodeChar c).length := by
  unfold utf8EncodeChar
  by_cases h1 : c.toNat < 128
  · simp [h1]
  · by_cases h2 : c.toNat < 2048
    · simp [h1, h2]
    · by_cases h3 : c.toNat < 65536 <;> simp [h1, h2, h3]

theorem utf8Encode_length_ge : ∀ (cs : List Char), cs.length ≤ (utf8Encode cs).length := by
  intro cs
  induction cs with
  | nil => simp [utf8Encode]
  | cons c rest ih =>
    unfold utf8Encode at ih ⊢
    rw [List.flatMap_cons]
    simp only [List.length_cons, List.length_append]
    have := utf8EncodeChar_length_pos c
    omega

theorem utf8Decode_encode (cs : List Char) : utf8Decode (utf8Encode cs) = some cs :=
  utf8DecodeFuel_encode cs (utf8Encode cs).length (utf8Encode_length_ge cs)

theorem countDigits_of_no_digits (s : String) (h : ∀ c ∈ s.data, c.isDigit = false) :
    countDigits s = [] := by
  refine List.filter_eq_nil_iff.mpr ?_
  intro c hc
  have hmem : c ∈ s.data := by
    unfold countStripped at hc
    by_cases hd : s.data.contains '-'
    · rw [if_pos hd] at hc
      exact List.mem_of_mem_drop hc
    · rwa [if_neg hd] at hc
  simp [h c hmem]

theorem countFromText_of_no_digits (s : String) (h : ∀ c ∈ s.data, c.isDigit = false) :
    countFromText s = 0 := by
  unfold countFromText
  rw [countDigits_of_no_digits s h]
  rfl

theorem extractBlock_ok_shape (b : Block) (r : ResultItem)
    (h : extractBlock b = some (.ok r)) : ∃ u t c, r = .record u t c := by
  unfold extractBlock at h
  cases hl : b.link? with
  | none => rw [hl] at h; exact absurd h (by simp)
  | some link =>
    rw [hl] at h
    cases hh : link.href? with
    | none => simp [hh] at h
    | some url =>
      simp only [hh] at h
      cases hdec : (if strStartsWith url ck_url_mark then decodeBingUrl url else .ok url) with
      | error e => simp [hdec] at h
      | ok u =>
        simp only [hdec, Option.some.injEq, Except.ok.injEq] at h
        exact ⟨u, link.title, b.content, h.symm⟩

theorem extractRecords_shape : ∀ (bs : List Block) (rs : List ResultItem),
    extractRecords bs = .ok rs → ∀ r ∈ rs, ∃ u t c, r = .record u t c := by
  intro bs
  induction bs with
  | nil =>
    intro rs h
    simp only [extractRecords, Except.ok.injEq] at h
    simp [← h]
  | cons b rest ih =>
    intro rs h r hr
    unfold extractRecords at h
    cases hb : extractBlock b with
    | none =>
      rw [hb] at h
      exact ih rs h r hr
    | some ex =>
      rw [hb] at h
      cases ex with
      | error e => exact absurd h (by simp)
      | ok r0 =>
        cases hrest : extractRecords rest with
        | error e => rw [hrest] at h; exact absurd h (by simp)
        | ok rs' =>
          rw [hrest] at h
          simp only [Except.ok.injEq] at h
          subst h
          rcases List.mem_cons.mp hr with h | h
          · subst h; exact extractBlock_ok_shape b r hb
          · exact ih rs' hrest r h

theorem extractRecords_error_of_failing : ∀ (bs : List Block) (b : Block) (e : String),
    b ∈ bs → extractBlock b = some (.error e) →
    ∃ e', extractRecords bs = .error e' := by
  intro bs
  induction bs with
  | nil => intro b e h; exact absurd h (by simp)
  | cons hd rest ih =>
    intro b e hmem hfail
    rcases List.mem_cons.mp hmem with heq | htail
    · subst heq
      exact ⟨e, by simp [extractRecords, hfail]⟩
    · rcases ih b e htail hfail with ⟨e', he⟩
      cases hb : extractBlock hd with
      | none => exact ⟨e', by simp [extractRecords, hb, he]⟩
      | some ex =>
        cases ex with
        | error e0 => exact ⟨e0, by simp [extractRecords, hb]⟩
        | ok r0 => exact ⟨e', by simp [extractRecords, hb, he]⟩

theorem dictSet_keys_mem (m : List (String × String)) (k v x : String)
    (h : x ∈ (dictSet m k v).map Prod.fst) : x = k ∨ x ∈ m.map Prod.fst := by
  induction m with
  | nil =>
    simp [dictSet] at h
    exact Or.inl h
  | cons kv rest ih =>
    by_cases hk : kv.1 = k
    · simp only [dictSet, if_pos hk, List.map_cons, List.mem_cons] at h
      rcases h with h | h
      · exact Or.inl h
      · exact Or.inr (by simp [h])
    · simp only [dictSet, if_neg hk, List.map_cons, List.mem_cons] at h
      rcases h with h | h
      · exact Or.inr (by simp [h])
      · rcases ih h with h | h
        · exact Or.inl h
        · exact Or.inr (by simp [h])

theorem dictSet_keys_nodup (m : List (String × String)) (k v : String)
    (h : (m.map Prod.fst).Nodup) : ((dictSet m k v).map Prod.fst).Nodup := by
  induction m with
  | nil => simp [dictSet]
  | cons kv rest ih =>
    simp only [List.map_cons, List.nodup_cons] at h
    by_cases hk : kv.1 = k
    · simp only [dictSet, if_pos hk, List.map_cons, List.nodup_cons]
      exact ⟨hk ▸ h.1, h.2⟩
    · simp only [dictSet, if_neg hk, List.map_cons, List.nodup_cons]
      refine ⟨?_, ih h.2⟩
      intro hmem
      rcases dictSet_keys_mem rest k v kv.1 hmem with heq | hm
      · exact hk heq
      · exact h.1 hm

theorem conflict_update_preserves (table : List (String × String)) (log : List String)
    (tag' eng tag c : String) (h : dictGet table tag = some c) (hc : c ≠ "") :
    dictGet (conflict_update table log tag' eng).1 tag = some c := by
  unfold conflict_update
  by_cases htag : tag' = tag
  · subst htag
    simp only [h]
    rw [if_pos hc]
    by_cases hce : c ≠ eng
    · rw [if_pos hce]
      exact h
    · rw [if_neg hce]
      exact h
  · cases hg : dictGet table tag' with
    | none =>
      simp only [hg]
      show dictGet (dictSet table tag' eng) tag = some c
      rw [dictGet_dictSet_ne _ _ _ _ htag]
      exact h
    | some conflict =>
      simp only [hg]
      by_cases hcon : conflict ≠ ""
      · rw [if_pos hcon]
        by_cases hce : conflict ≠ eng
        · rw [if_pos hce]
          exact h
        · rw [if_neg hce]
          exact h
      · rw [if_neg hcon]
        show dictGet (dictSet table tag' eng) tag = some c
        rw [dictGet_dictSet_ne _ _ _ _ htag]
        exact h

theorem conflict_update_log_mono (table : List (String × String)) (log : List String)
    (tag' eng l : String) (h : l ∈ log) : l ∈ (conflict_update table log tag' eng).2 := by
  unfold conflict_update
  cases dictGet table tag' with
  | none => exact h
  | some conflict =>
    by_cases hcon : conflict ≠ ""
    · by_cases hce : conflict ≠ eng
      · simp only [if_pos hcon, if_pos hce]
        exact List.mem_append_left _ h
      · simp only [if_pos hcon, if_neg hce]
        exact h
    · simp only [if_neg hcon]
      exact h

theorem conflict_update_logs (table : List (String × String)) (log : List String)
    (tag eng c : String) (h : dictGet table tag = some c) (hc : c ≠ "") (hne : eng ≠ c) :
    ("CONFLICT: babel " ++ tag ++ " --> " ++ c ++ ", " ++ eng) ∈
      (conflict_update table log tag eng).2 := by
  unfold conflict_update
  simp only [h, if_pos hc, if_pos (show c ≠ eng from fun hh => hne hh.symm)]
  exact List.mem_append_right _ (by simp)

theorem conflict_update_keys_nodup (table : List (String × String)) (log : List String)
    (tag eng : String) (h : (table.map Prod.fst).Nodup) :
    ((conflict_update table log tag eng).1.map Prod.fst).Nodup := by
  unfold conflict_update
  cases dictGet table tag with
  | none => exact dictSet_keys_nodup _ _ _ h
  | some conflict =>
    by_cases hcon : conflict ≠ ""
    · by_cases hce : conflict ≠ eng
      · simp only [if_pos hcon, if_pos hce]
        exact h
      · simp only [if_pos hcon, if_neg hce]
        exact h
    · simp only [if_neg hcon]
      exact dictSet_keys_nodup _ _ _ h

theorem language_step_preserves (parse : String → Option String) (t : EngineTraits)
    (e tag c : String) (h : dictGet t.languages tag = some c) (hc : c ≠ "") :
    dictGet (language_step parse t e).languages tag = some c := by
  unfold language_step
  by_cases hskip : e = "en-gb" ∨ e = "pt-br"
  · rw [if_pos hskip]
    exact h
  · rw [if_neg hskip]
    cases parse (underscore (map_lang e)) with
    | none => exact h
    | some tag' => exact conflict_update_preserves _ _ _ _ _ _ h hc

theorem region_step_preserves (parse : String → Option String) (t : EngineTraits)
    (e tag c : String) (h : dictGet t.regions tag = some c) (hc : c ≠ "") :
    dictGet (region_step parse t e).regions tag = some c := by
  unfold region_step
  by_cases hskip : e = "en-WW"
  · rw [if_pos hskip]
    exact h
  · rw [if_neg hskip]
    cases parse (underscore (map_region e)) with
    | none => exact h
    | some tag' => exact conflict_update_preserves _ _ _ _ _ _ h hc

theorem language_step_log_mono (parse : String → Option String) (t : EngineTraits)
    (e l : String) (h : l ∈ t.log) : l ∈ (language_step parse t e).log := by
  unfold language_step
  by_cases hskip : e = "en-gb" ∨ e = "pt-br"
  · rw [if_pos hskip]
    exact h
  · rw [if_neg hskip]
    cases parse (underscore (map_lang e)) with
    | none => exact List.mem_append_left _ h
    | some tag' => exact conflict_update_log_mono _ _ _ _ _ h

theorem region_step_log_mono (parse : String → Option String) (t : EngineTraits)
    (e l : String) (h : l ∈ t.log) : l ∈ (region_step parse t e).log := by
  unfold region_step
  by_cases hskip : e = "en-WW"
  · rw [if_pos hskip]
    exact h
  · rw [if_neg hskip]
    cases parse (underscore (map_region e)) with
    | none => exact List.mem_append_left _ h
    | some tag' => exact conflict_update_log_mono _ _ _ _ _ h

theorem language_step_keys_nodup (parse : String → Option String) (t : EngineTraits)
    (e : String) (h : (t.languages.map Prod.fst).Nodup) :
    ((language_step parse t e).languages.map Prod.fst).Nodup := by
  unfold language_step
  by_cases hskip : e = "en-gb" ∨ e = "pt-br"
  · rw [if_pos hskip]
    exact h
  · rw [if_neg hskip]
    cases parse (underscore (map_lang e)) with
    | none => exact h
    | some tag' => exact conflict_update_keys_nodup _ _ _ _ h

theorem region_step_keys_nodup (parse : String → Option String) (t : EngineTraits)
    (e : String) (h : (t.regions.map Prod.fst).Nodup) :
    ((region_step parse t e).regions.map Prod.fst).Nodup := by
  unfold region_step
  by_cases hskip : e = "en-WW"
  · rw [if_pos hskip]
    exact h
  · rw [if_neg hskip]
    cases parse (underscore (map_region e)) with
    | none => exact h
    | some tag' => exact conflict_update_keys_nodup _ _ _ _ h

theorem foldl_language_preserves (parse : String → Option String) :
    ∀ (tds : List String) (t : EngineTraits) (tag c : String),
    dictGet t.languages tag = some c → c ≠ "" →
    dictGet ((tds.foldl (language_step parse) t).languages) tag = some c := by
  intro tds
  induction tds with
  | nil => intro t tag c h _; exact h
  | cons e rest ih =>
    intro t tag c h hc
    exact ih _ tag c (language_step_preserves parse t e tag c h hc) hc

theorem foldl_region_preserves (parse : String → Option String) :
    ∀ (tds : List String) (t : EngineTraits) (tag c : String),
    dictGet t.regions tag = some c → c ≠ "" →
    dictGet ((tds.foldl (region_step parse) t).regions) tag = some c := by
  intro tds
  induction tds with
  | nil => intro t tag c h _; exact h
  | cons e rest ih =>
    intro t tag c h hc
    exact ih _ tag c (region_step_preserves parse t e tag c h hc) hc

theorem foldl_language_log_mono (parse : String → Option String) :
    ∀ (tds : List String) (t : EngineTraits) (l : String),
    l ∈ t.log → l ∈ (tds.foldl (language_step parse) t).log := by
  intro tds
  induction tds with
  | nil => intro t l h; exact h
  | cons e rest ih =>
    intro t l h
    exact ih _ l (language_step_log_mono parse t e l h)

theorem foldl_region_log_mono (parse : String → Option String) :
    ∀ (tds : List String) (t : EngineTraits) (l : String),
    l ∈ t.log → l ∈ (tds.foldl (region_step parse) t).log := by
  intro tds
  induction tds with
  | nil => intro t l h; exact h
  | cons e rest ih =>
    intro t l h
    exact ih _ l (region_step_log_mono parse t e l h)

theorem foldl_language_conflict (parse : String → Option String) :
    ∀ (tds : List String) (t : EngineTraits) (tag c e : String),
    e ∈ tds → dictGet t.languages tag = some c → c ≠ "" →
    ¬(e = "en-gb" ∨ e = "pt-br") → parse (underscore (map_lang e)) = some tag → e ≠ c →
    ("CONFLICT: babel " ++ tag ++ " --> " ++ c ++ ", " ++ e) ∈
      (tds.foldl (language_step parse) t).log := by
  intro tds
  induction tds with
  | nil => intro t tag c e he; cases he
  | cons e0 rest ih =>
    intro t tag c e he h hc hskip hp hne
    rcases List.mem_cons.mp he with heq | htail
    · subst heq
      have hstep : ("CONFLICT: babel " ++ tag ++ " --> " ++ c ++ ", " ++ e) ∈
          (language_step parse t e).log := by
        unfold language_step
        rw [if_neg hskip, hp]
        exact conflict_update_logs _ _ _ _ _ h hc hne
      exact foldl_language_log_mono parse rest _ _ hstep
    · exact ih _ tag c e htail (language_step_preserves parse t e0 tag c h hc) hc hskip hp hne

theorem foldl_region_conflict (parse : String → Option String) :
    ∀ (tds : List String) (t : EngineTraits) (tag c e : String),
    e ∈ tds → dictGet t.regions tag = some c → c ≠ "" →
    e ≠ "en-WW" → parse (underscore (map_region e)) = some tag → e ≠ c →
    ("CONFLICT: babel " ++ tag ++ " --> " ++ c ++ ", " ++ e) ∈
      (tds.foldl (region_step parse) t).log := by
  intro tds
  induction tds with
  | nil => intro t tag c e he; cases he
  | cons e0 rest ih =>
    intro t tag c e he h hc hskip hp hne
    rcases List.mem_cons.mp he with heq | htail
    · subst heq
      have hstep : ("CONFLICT: babel " ++ tag ++ " --> " ++ c ++ ", " ++ e) ∈
          (region_step parse t e).log := by
        unfold region_step
        rw [if_neg hskip, hp]
        exact conflict_update_logs _ _ _ _ _ h hc hne
      exact foldl_region_log_mono parse rest _ _ hstep
    · exact ih _ tag c e htail (region_step_preserves parse t e0 tag c h hc) hc hskip hp hne

theorem foldl_language_keys_nodup (parse : String → Option String) :
    ∀ (tds : List String) (t : EngineTraits),
    (t.languages.map Prod.fst).Nodup →
    ((tds.foldl (language_step parse) t).languages.map Prod.fst).Nodup := by
  intro tds
  induction tds with
  | nil => intro t h; exact h
  | cons e rest ih =>
    intro t h
    exact ih _ (language_step_keys_nodup parse t e h)

theorem foldl_region_keys_nodup (parse : String → Option String) :
    ∀ (tds : List String) (t : EngineTraits),
    (t.regions.map Prod.fst).Nodup →
    ((tds.foldl (region_step parse) t).regions.map Prod.fst).Nodup := by
  intro tds
  induction tds with
  | nil => intro t h; exact h
  | cons e rest ih =>
    intro t h
    exact ih _ (region_step_keys_nodup parse t e h)

theorem response_ok (resp : Resp) (rs : List ResultItem)
    (h : extractRecords resp.dom.blocks = .ok rs) :
    response resp =
      if countFromText resp.dom.sb_count_text ≠ 0 ∧
         _page_offset (resp.pageno?.getD 0) > (countFromText resp.dom.sb_count_text : Int)
      then .ok [] else .ok (rs ++ [.count (countFromText resp.dom.sb_count_text)]) := by
  unfold response
  rw [h]

theorem request_url (query : String) (params : ReqParams) (traits : EngineTraits)
    (unix_day : Int) (n : Int) (hpag : params.pageno? = some n)
    (htr : params.time_range? = none) :
    (request query params traits unix_day).url =
      base_url ++ "?q=" ++ quotePlus query ++ "&first=" ++ intRepr (_page_offset n) := by
  unfold request
  rw [hpag, htr]
  have hq : quotePlus "q" = "q" := by decide
  have hf : quotePlus "first" = "first" := by decide
  simp only [Option.getD_some]
  apply String.ext
  simp only [urlencode, hq, hf, quotePlus_intRepr, String.data_append]
  simp [List.append_assoc]

theorem request_url_data (query : String) (params : ReqParams) (traits : EngineTraits)
    (unix_day : Int) (n : Int) (hpag : params.pageno? = some n)
    (htr : params.time_range? = none) :
    (request query params traits unix_day).url.data =
      base_url.data ++ ['?', 'q', '='] ++ (quotePlus query).data ++
        ['&', 'f', 'i', 'r', 's', 't', '='] ++ (intRepr (_page_offset n)).data := by
  rw [request_url query params traits unix_day n hpag htr]
  simp [List.append_assoc]

theorem request_first_param (query : String) (params : ReqParams) (traits : EngineTraits)
    (unix_day : Int) (n : Int) (hpag : params.pageno? = some n)
    (htr : params.time_range? = none) :
    qsFirst (urlparse_query (request query params traits unix_day).url.data) "first" =
      some (intRepr (_page_offset n)).data := by
  rw [request_url_data query params traits unix_day n hpag htr]
  have hqp : ∀ c ∈ (quotePlus query).data, c ≠ '&' ∧ c ≠ '=' ∧ c ≠ '?' ∧ c ≠ '#' :=
    fun c hc => quotePlus_not_special hc
  have hv : ∀ c ∈ (intRepr (_page_offset n)).data, c ≠ '&' ∧ c ≠ '=' ∧ c ≠ '?' ∧ c ≠ '#' :=
    fun c hc => safe_not_special (intRepr_safe _ c hc)
  have hns : ('#' : Char) ∉
      base_url.data ++ ['?', 'q', '='] ++ (quotePlus query).data ++
        ['&', 'f', 'i', 'r', 's', 't', '='] ++ (intRepr (_page_offset n)).data := by
    intro hmem
    simp only [List.mem_append] at hmem
    rcases hmem with (((hm | hm) | hm) | hm) | hm
    · exact absurd hm (by decide)
    · exact absurd hm (by decide)
    · exact (hqp _ hm).2.2.2 rfl
    · exact absurd hm (by decide)
    · exact (hv _ hm).2.2.2 rfl
  unfold urlparse_query
  rw [beforeFirst_of_not_mem _ _ hns]
  have hshape : base_url.data ++ ['?', 'q', '='] ++ (quotePlus query).data ++
      ['&', 'f', 'i', 'r', 's', 't', '='] ++ (intRepr (_page_offset n)).data =
      base_url.data ++ '?' :: (('q' :: '=' :: (quotePlus query).data) ++
        '&' :: ('f' :: 'i' :: 'r' :: 's' :: 't' :: '=' :: (intRepr (_page_offset n)).data)) := by
    simp [List.append_assoc]
  rw [hshape, afterFirst_append _ _ _ (by decide)]
  unfold qsFirst parse_qs_pairs
  have hamp1 : ('&' : Char) ∉ 'q' :: '=' :: (quotePlus query).data := by
    intro hmem
    rcases List.mem_cons.mp hmem with hm | hm
    · exact absurd hm (by decide)
    rcases List.mem_cons.mp hm with hm | hm
    · exact absurd hm (by decide)
    · exact (hqp _ hm).1 rfl
  have hamp2 : ('&' : Char) ∉
      'f' :: 'i' :: 'r' :: 's' :: 't' :: '=' :: (intRepr (_page_offset n)).data := by
    intro hmem
    simp only [List.mem_cons] at hmem
    rcases hmem with hm | hm | hm | hm | hm | hm | hm
    · exact absurd hm (by decide)
    · exact absurd hm (by decide)
    · exact absurd hm (by decide)
    · exact absurd hm (by decide)
    · exact absurd hm (by decide)
    · exact absurd hm (by decide)
    · exact (hv _ hm).1 rfl
  rw [splitOnChar_append _ _ _ hamp1, splitOnChar_of_not_mem _ _ hamp2]
  have hfld2 : parseField ('f' :: 'i' :: 'r' :: 's' :: 't' :: '=' ::
      (intRepr (_page_offset n)).data) = some ("first", (intRepr (_page_offset n)).data) := by
    have := parseField_append ['f', 'i', 'r', 's', 't'] (intRepr (_page_offset n)).data
      (by decide) (intRepr_ne_nil _)
    simpa using this
  cases hq : (quotePlus query).data with
  | nil =>
    have hfld1 : parseField ['q', '='] = none := by decide
    simp [List.filterMap_cons, hfld1, hfld2, List.find?]
  | cons c cs =>
    have hfld1 : parseField ('q' :: '=' :: c :: cs) = some ("q", c :: cs) := by
      have := parseField_append ['q'] (c :: cs) (by decide) (by simp)
      simpa using this
    simp [List.filterMap_cons, hfld1, hfld2, List.find?, beforeFirst, afterFirst,
      List.takeWhile_cons]

theorem request_cookies (query : String) (params : ReqParams) (traits : EngineTraits)
    (unix_day : Int) :
    (request query params traits unix_day).cookies =
      set_bing_cookies params.cookies (traits.get_language params.searxng_locale "en-us")
        (traits.get_region params.searxng_locale "en-us") := by
  unfold request
  cases params.time_range? with
  | none => rfl
  | some tr => cases dictGet (time_ranges unix_day) tr <;> rfl

/-! ## Claim theorems -/

/-- C1: for every page number n ≥ 1 the 1-based result offset is
`10 * (n - 1) + 1` (so `offset 1 = 1` and `offset 3 = 21`), and the outbound
request URL carries this value as the `first` query parameter. -/
theorem offset_first_param (n : Int) (hn : 1 ≤ n) (query : String) (params : ReqParams)
    (traits : EngineTraits) (unix_day : Int)
    (hpag : params.pageno? = some n) (htr : params.time_range? = none) :
    _page_offset n = 10 * (n - 1) + 1 ∧ _page_offset 1 = 1 ∧ _page_offset 3 = 21 ∧
    (request query params traits unix_day).url =
      base_url ++ "?q=" ++ quotePlus query ++ "&first=" ++ intRepr (_page_offset n) ∧
    qsFirst (urlparse_query (request query params traits unix_day).url.data) "first" =
      some (intRepr (_page_offset n)).data := by
  refine ⟨?_, by decide, by decide, ?_, ?_⟩
  · unfold _page_offset
    ring
  · exact request_url query params traits unix_day n hpag htr
  · exact request_first_param query params traits unix_day n hpag htr

/-- Witness for C1 at page number 3 and a concrete query. -/
theorem offset_first_param_witness :
    _page_offset 3 = 10 * (3 - 1) + 1 ∧
    (request "test query" ⟨"en-US", some 3, none, []⟩ ⟨[], [], none, []⟩ 0).url =
      "https://www.bing.com/search?q=test+query&first=21" ∧
    qsFirst (urlparse_query
        (request "test query" ⟨"en-US", some 3, none, []⟩ ⟨[], [], none, []⟩ 0).url.data)
      "first" = some ['2', '1'] := by
  have h := offset_first_param 3 (by decide) "test query" ⟨"en-US", some 3, none, []⟩
    ⟨[], [], none, []⟩ 0 rfl rfl
  refine ⟨h.1, ?_, ?_⟩
  · rw [h.2.2.2.1]
    decide
  · rw [h.2.2.2.2]
    decide

/-- C9 counterexample: with an empty trait table (so no mapping exists for
the internal locale), the emitted cookie is `m=en-us&u=en-us;` — the default
passed at lines 83-84 is the pair code `en-us` for both the region and the
language slot — not the `m=us&u=en;` the claim's fallback
(language "en", region "us") would produce. -/
theorem cookie_locale_counterexample :
    dictGet (request "q" ⟨"xx-XX", some 1, none, []⟩ ⟨[], [], none, []⟩ 0).cookies
      "_EDGE_CD" = some "m=en-us&u=en-us;" ∧
    ("m=en-us&u=en-us;" : String) ≠ "m=us&u=en;" := by decide

/-- C9 amended: the request stores a single `_EDGE_CD` cookie jointly
encoding region and language as `m=<region>&u=<language>;` (lower-cased),
where region and language are the trait-table resolution of the internal
locale tag; when no mapping exists, both fall back to the literal default
`en-us` passed by `request`. -/
theorem cookie_locale (query : String) (params : ReqParams) (traits : EngineTraits)
    (unix_day : Int) :
    dictGet (request query params traits unix_day).cookies "_EDGE_CD" =
      some ("m=" ++ strLower (traits.get_region params.searxng_locale "en-us") ++
            "&u=" ++ strLower (traits.get_language params.searxng_locale "en-us") ++ ";") ∧
    (dictGet traits.regions params.searxng_locale = none →
     dictGet traits.languages params.searxng_locale = none →
     dictGet (request query params traits unix_day).cookies "_EDGE_CD" =
       some "m=en-us&u=en-us;") := by
  have h1 : dictGet (request query params traits unix_day).cookies "_EDGE_CD" =
      some ("m=" ++ strLower (traits.get_region params.searxng_locale "en-us") ++
            "&u=" ++ strLower (traits.get_language params.searxng_locale "en-us") ++ ";") := by
    rw [request_cookies]
    unfold set_bing_cookies
    exact dictGet_dictSet_self _ _ _
  refine ⟨h1, fun hr hl => ?_⟩
  rw [h1]
  unfold EngineTraits.get_region EngineTraits.get_language
  rw [hr, hl]
  decide

/-- Witness for C9's amended claim: a trait table carrying a mapping for the
locale, and the no-mapping fallback case. -/
theorem cookie_locale_witness :
    dictGet (request "q" ⟨"de-DE", some 1, none, []⟩
        ⟨[("de-DE", "de")], [("de-DE", "de-DE")], none, []⟩ 0).cookies "_EDGE_CD" =
      some "m=de-de&u=de;" ∧
    dictGet (request "q" ⟨"xx-XX", some 1, none, []⟩ ⟨[], [], none, []⟩ 0).cookies
      "_EDGE_CD" = some "m=en-us&u=en-us;" := by
  constructor
  · have h := (cookie_locale "q" ⟨"de-DE", some 1, none, []⟩
      ⟨[("de-DE", "de")], [("de-DE", "de-DE")], none, []⟩ 0).1
    rw [h]
    decide
  · exact (cookie_locale "q" ⟨"xx-XX", some 1, none, []⟩ ⟨[], [], none, []⟩ 0).2 rfl rfl

/-- C3: redirect decoding round-trips.  Wrapping any destination URL in the
provider's indirection scheme (the `https://www.bing.com/ck/a?` prefix with
the value of query parameter `u` being a 2-character tag followed by the
unpadded base64url encoding of the UTF-8 URL) and running the extractor's
decoding steps (take the first `u` value, drop two characters, pad with `=`
to a multiple of four, base64url-decode, UTF-8-decode) yields the original
URL exactly; the wrapper also carries the indirection prefix the extractor
tests for. -/
theorem redirect_roundtrip (u : String) :
    strStartsWith (bingWrap u) ck_url_mark = true ∧
    decodeBingUrl (bingWrap u) = .ok u := by
  obtain ⟨ud⟩ := u
  set enc := b64encode (utf8Encode ud) with henc
  have hencf : ∀ c ∈ enc, c ≠ '=' ∧ c ≠ '&' ∧ c ≠ '?' ∧ c ≠ '#' := by
    rw [henc]
    intro c hc
    exact b64encode_not_special (utf8Encode_lt ud) hc
  have hck : ck_url_mark.data = "https://www.bing.com/ck/a".data ++ ['?'] := by decide
  have hu4 : "u=a1".data = ['u', '=', 'a', '1'] := rfl
  have hdata : (bingWrap (String.mk ud)).data =
      "https://www.bing.com/ck/a".data ++ '?' :: ('u' :: '=' :: 'a' :: '1' :: enc) := by
    show (ck_url_mark ++ "u=a1" ++ String.mk enc).data = _
    simp only [String.data_append, hck, hu4]
    simp [List.append_assoc]
  constructor
  · unfold strStartsWith
    have hdata2 : (bingWrap (String.mk ud)).data =
        ck_url_mark.data ++ (['u', '=', 'a', '1'] ++ enc) := by
      rw [hdata, hck]
      simp [List.append_assoc]
    rw [hdata2]
    exact isPrefixOf_append _ _
  · unfold decodeBingUrl
    have hq : qsFirst (urlparse_query (bingWrap (String.mk ud)).data) "u" =
        some ('a' :: '1' :: enc) := by
      unfold urlparse_query
      have hns : ('#' : Char) ∉ (bingWrap (String.mk ud)).data := by
        rw [hdata]
        intro hm
        rcases List.mem_append.mp hm with hm | hm
        · exact absurd hm (by decide)
        · simp only [List.mem_cons] at hm
          rcases hm with hm | hm | hm | hm | hm | hm
          · exact absurd hm (by decide)
          · exact absurd hm (by decide)
          · exact absurd hm (by decide)
          · exact absurd hm (by decide)
          · exact absurd hm (by decide)
          · exact (hencf _ hm).2.2.2 rfl
      rw [beforeFirst_of_not_mem _ _ hns, hdata, afterFirst_append _ _ _ (by decide)]
      unfold qsFirst parse_qs_pairs
      have hamp : ('&' : Char) ∉ 'u' :: '=' :: 'a' :: '1' :: enc := by
        intro hm
        simp only [List.mem_cons] at hm
        rcases hm with hm | hm | hm | hm | hm
        · exact absurd hm (by decide)
        · exact absurd hm (by decide)
        · exact absurd hm (by decide)
        · exact absurd hm (by decide)
        · exact (hencf _ hm).2.1 rfl
      rw [splitOnChar_of_not_mem _ _ hamp]
      have hfld : parseField ('u' :: '=' :: 'a' :: '1' :: enc) =
          some ("u", 'a' :: '1' :: enc) := by
        have h := parseField_append ['u'] ('a' :: '1' :: enc) (by decide) (by simp)
        simpa using h
      simp [List.filterMap_cons, hfld, List.find?, beforeFirst, afterFirst,
        List.takeWhile_cons]
    rw [hq]
    have hdrop : List.drop 2 ('a' :: '1' :: enc) = enc := rfl
    simp only [hdrop]
    have hb64 := b64decode_pad_encode (utf8Encode ud) (utf8Encode_lt ud)
    rw [← henc] at hb64
    simp only [hb64]
    rw [utf8Decode_encode ud]

/-- C5: total-count extraction applied to the count-element text
`"1-10 of 1,234 results"` yields the integer 1234: the `X-Y` range portion is
stripped, all non-digit characters are removed from the remainder, and the
remaining digits parse as the count. -/
theorem count_extraction_example :
    countStripped "1-10 of 1,234 results".data = " of 1,234 results".data ∧
    countDigits "1-10 of 1,234 results" = "1234".data ∧
    countFromText "1-10 of 1,234 results" = 1234 := by decide

/-- C6: for every count-element text containing no digit characters,
total-count extraction yields the unknown marker (the initial `0`) rather
than raising, and the page's result records are still returned (followed by
the pseudo-record the code unconditionally appends). -/
theorem count_no_digits (resp : Resp) (rs : List ResultItem)
    (hnod : ∀ c ∈ resp.dom.sb_count_text.data, c.isDigit = false)
    (hrec : extractRecords resp.dom.blocks = .ok rs) :
    countFromText resp.dom.sb_count_text = 0 ∧
    response resp = .ok (rs ++ [.count 0]) := by
  have h0 := countFromText_of_no_digits _ hnod
  refine ⟨h0, ?_⟩
  rw [response_ok resp rs hrec, h0]
  simp

/-- Witness for C6 at a concrete digit-free count text. -/
theorem count_no_digits_witness :
    countFromText "There are no results" = 0 ∧
    response ⟨⟨[⟨some ⟨some "https://example.org/a", "t"⟩, "c"⟩], "There are no results"⟩, some 2⟩ =
      .ok [.record "https://example.org/a" "t" "c", .count 0] :=
  count_no_digits ⟨⟨[⟨some ⟨some "https://example.org/a", "t"⟩, "c"⟩], "There are no results"⟩, some 2⟩
    [.record "https://example.org/a" "t" "c"] (by decide) (by decide)

/-- C2 counterexample: a count element whose text parses to the integer 0
(digits are present, so the total count is known) together with an echoed
page number whose offset exceeds it.  The claim demands an empty result
list, but `if result_len and ...` treats the parsed 0 as falsy, so the
response passes through and even appends the count record. -/
theorem guard_zero_count_counterexample :
    countDigits "0 of 0" = ['0', '0'] ∧
    countFromText "0 of 0" = 0 ∧
    _page_offset 1 > (0 : Int) ∧
    response ⟨⟨[], "0 of 0"⟩, some 1⟩ = .ok [.count 0] ∧
    response ⟨⟨[], "0 of 0"⟩, some 1⟩ ≠ .ok [] := by decide

/-- C2 amended: the guard applies only when the extracted total count is
known and nonzero; when the count is unknown or parses to zero the records
pass through unchanged (with the count pseudo-record appended). -/
theorem guard_requires_positive_count (resp : Resp) (rs : List ResultItem)
    (hrec : extractRecords resp.dom.blocks = .ok rs) :
    (countFromText resp.dom.sb_count_text ≠ 0 →
      _page_offset (resp.pageno?.getD 0) > (countFromText resp.dom.sb_count_text : Int) →
      response resp = .ok []) ∧
    (countFromText resp.dom.sb_count_text = 0 →
      response resp = .ok (rs ++ [.count 0])) := by
  constructor
  · intro h1 h2
    rw [response_ok resp rs hrec, if_pos ⟨h1, h2⟩]
  · intro h0
    rw [response_ok resp rs hrec, h0]
    simp

/-- Witness for C2's amended guard at a concrete out-of-range page. -/
theorem guard_requires_positive_count_witness :
    response ⟨⟨[], "1-10 of 50"⟩, some 7⟩ = .ok [] :=
  (guard_requires_positive_count ⟨⟨[], "1-10 of 50"⟩, some 7⟩ [] (by decide)).1
    (by decide) (by decide)

/-- C7: the returned page is the ordered list of `{title, url, content}`
records with the terminal `number_of_results` pseudo-record appended when the
count is available; when the pagination guard triggers, an empty list with no
count record is returned. -/
theorem result_page_shape (resp : Resp) (rs : List ResultItem)
    (hrec : extractRecords resp.dom.blocks = .ok rs) :
    (∀ r ∈ rs, ∃ u t c, r = .record u t c) ∧
    (countFromText resp.dom.sb_count_text ≠ 0 ∧
       _page_offset (resp.pageno?.getD 0) > (countFromText resp.dom.sb_count_text : Int) →
      response resp = .ok []) ∧
    (¬(countFromText resp.dom.sb_count_text ≠ 0 ∧
       _page_offset (resp.pageno?.getD 0) > (countFromText resp.dom.sb_count_text : Int)) →
      response resp = .ok (rs ++ [.count (countFromText resp.dom.sb_count_text)])) := by
  refine ⟨extractRecords_shape _ _ hrec, ?_, ?_⟩
  · intro h
    rw [response_ok resp rs hrec, if_pos h]
  · intro h
    rw [response_ok resp rs hrec, if_neg h]

/-- Witness for C7 at a concrete in-range page with a known count. -/
theorem result_page_shape_witness :
    response ⟨⟨[⟨some ⟨some "https://example.org/a", "t"⟩, "c"⟩], "1-10 of 1,234 results"⟩, some 1⟩ =
      .ok [.record "https://example.org/a" "t" "c", .count 1234] :=
  (result_page_shape ⟨⟨[⟨some ⟨some "https://example.org/a", "t"⟩, "c"⟩], "1-10 of 1,234 results"⟩, some 1⟩
    [.record "https://example.org/a" "t" "c"] (by decide)).2.2 (by decide)

/-- C8: during trait-table refresh, for every internal tag in both the
language and region tables, the first-seen provider code wins: a later entry
mapping to the same tag never overwrites a (truthy) existing mapping, a
differing later code is logged as a conflict, and key uniqueness of each
table is preserved, so each internal tag maps to exactly one provider code.
The `babel` resolution pipelines are the function parameters `parse_l` /
`parse_r` (external to the repository). -/
theorem traits_first_wins (parse_l parse_r : String → Option String)
    (ltds mtds : List String) (t : EngineTraits) (tag c : String) :
    (dictGet t.languages tag = some c → c ≠ "" →
      dictGet ((ltds.foldl (language_step parse_l) t).languages) tag = some c) ∧
    (dictGet t.regions tag = some c → c ≠ "" →
      dictGet ((mtds.foldl (region_step parse_r) t).regions) tag = some c) ∧
    (∀ e ∈ ltds, dictGet t.languages tag = some c → c ≠ "" →
      ¬(e = "en-gb" ∨ e = "pt-br") → parse_l (underscore (map_lang e)) = some tag →
      e ≠ c →
      ("CONFLICT: babel " ++ tag ++ " --> " ++ c ++ ", " ++ e) ∈
        (ltds.foldl (language_step parse_l) t).log) ∧
    (∀ e ∈ mtds, dictGet t.regions tag = some c → c ≠ "" →
      e ≠ "en-WW" → parse_r (underscore (map_region e)) = some tag → e ≠ c →
      ("CONFLICT: babel " ++ tag ++ " --> " ++ c ++ ", " ++ e) ∈
        (mtds.foldl (region_step parse_r) t).log) ∧
    ((t.languages.map Prod.fst).Nodup →
      ((ltds.foldl (language_step parse_l) t).languages.map Prod.fst).Nodup) ∧
    ((t.regions.map Prod.fst).Nodup →
      ((mtds.foldl (region_step parse_r) t).regions.map Prod.fst).Nodup) := by
  refine ⟨?_, ?_, ?_, ?_, ?_, ?_⟩
  · intro h hc
    exact foldl_language_preserves parse_l ltds t tag c h hc
  · intro h hc
    exact foldl_region_preserves parse_r mtds t tag c h hc
  · intro e he h hc hskip hp hne
    exact foldl_language_conflict parse_l ltds t tag c e he h hc hskip hp hne
  · intro e he h hc hskip hp hne
    exact foldl_region_conflict parse_r mtds t tag c e he h hc hskip hp hne
  · intro h
    exact foldl_language_keys_nodup parse_l ltds t h
  · intro h
    exact foldl_region_keys_nodup parse_r mtds t h

/-- Witness for C8: a table already mapping tag `xx` to code `aa` meets a
later entry `xx` resolving to the same tag — the stored code survives both
folds and the conflict messages are logged. -/
theorem traits_first_wins_witness :
    dictGet ((["xx"].foldl (language_step (fun s => some s))
        ⟨[("xx", "aa")], [("xx", "aa")], none, []⟩).languages) "xx" = some "aa" ∧
    dictGet ((["xx"].foldl (region_step (fun s => some s))
        ⟨[("xx", "aa")], [("xx", "aa")], none, []⟩).regions) "xx" = some "aa" ∧
    "CONFLICT: babel xx --> aa, xx" ∈
      (["xx"].foldl (language_step (fun s => some s))
        ⟨[("xx", "aa")], [("xx", "aa")], none, []⟩).log ∧
    "CONFLICT: babel xx --> aa, xx" ∈
      (["xx"].foldl (region_step (fun s => some s))
        ⟨[("xx", "aa")], [("xx", "aa")], none, []⟩).log := by
  have h := traits_first_wins (fun s => some s) (fun s => some s) ["xx"] ["xx"]
    ⟨[("xx", "aa")], [("xx", "aa")], none, []⟩ "xx" "aa"
  exact ⟨h.1 (by decide) (by decide), h.2.1 (by decide) (by decide),
    h.2.2.1 "xx" (by decide) (by decide) (by decide) (by decide) rfl (by decide),
    h.2.2.2.1 "xx" (by decide) (by decide) (by decide) (by decide) rfl (by decide)⟩

/-- C10: when the echoed search parameters carry no page number, the guard
evaluates `_page_offset` at the default 0, giving offset -9, which is never
greater than the non-negative extracted count, so the page is never
discarded. -/
theorem default_pageno_guard (resp : Resp) (rs : List ResultItem)
    (hpag : resp.pageno? = none)
    (hrec : extractRecords resp.dom.blocks = .ok rs) :
    _page_offset 0 = -9 ∧
    response resp = .ok (rs ++ [.count (countFromText resp.dom.sb_count_text)]) := by
  refine ⟨by decide, ?_⟩
  rw [response_ok resp rs hrec, if_neg ?_]
  rintro ⟨-, h2⟩
  rw [hpag] at h2
  unfold _page_offset at h2
  simp only [Option.getD] at h2
  omega

/-- Witness for C10 at a concrete response with a tiny known count. -/
theorem default_pageno_guard_witness :
    _page_offset 0 = -9 ∧
    response ⟨⟨[], "2"⟩, none⟩ = .ok [.count 2] :=
  default_pageno_guard ⟨⟨[], "2"⟩, none⟩ [] rfl (by decide)

/-- C4 counterexample: a page with a well-formed first block and a second
block whose wrapper URL has no `u` parameter.  The claim demands the sibling
record still be returned; instead the whole call raises (`KeyError`), while
the sibling block alone would have extracted fine. -/
theorem decode_failure_aborts_counterexample :
    response respFailingBlock = .error "KeyError: u" ∧
    extractRecords [⟨some ⟨some "https://example.org/a", "t1"⟩, "c1"⟩] =
      .ok [.record "https://example.org/a" "t1" "c1"] := by decide

/-- C4 amended: a redirect-URL decode failure in any block is not confined
to that record — it aborts extraction of the entire page, and no records are
returned. -/
theorem decode_failure_aborts_page (resp : Resp) (b : Block) (link : Link) (url err : String)
    (hmem : b ∈ resp.dom.blocks) (hl : b.link? = some link) (hh : link.href? = some url)
    (hpre : strStartsWith url ck_url_mark = true)
    (hdec : decodeBingUrl url = .error err) :
    ∃ e, response resp = .error e := by
  have hblock : extractBlock b = some (.error err) := by
    simp [extractBlock, hl, hh, hpre, hdec]
  rcases extractRecords_error_of_failing resp.dom.blocks b err hmem hblock with ⟨e, he⟩
  refine ⟨e, ?_⟩
  unfold response
  rw [he]

/-- Witness for C4's amended claim at the concrete failing page. -/
theorem decode_failure_aborts_page_witness :
    ∃ e, response respFailingBlock = .error e :=
  decode_failure_aborts_page respFailingBlock
    ⟨some ⟨some "https://www.bing.com/ck/a?x=1", "t2"⟩, "c2"⟩
    ⟨some "https://www.bing.com/ck/a?x=1", "t2"⟩
    "https://www.bing.com/ck/a?x=1" "KeyError: u"
    (by decide) rfl rfl (by decide) (by decide)

end Bing
